import Mathlib

/-
Verification development for the ember-modifier lifecycle protocol.

The development shallowly embeds the two modifier variants described in the
repository:

* the function-based variant (the file function-based/modifier.ts under
  src/addon, together with its manager, whose behavior is specified in
  spec.md section 4.3:
  run the user function on install, invoke the pending Teardown and re-run on
  update, invoke the pending Teardown on destroy), and

* the hook-object (class-based) variant, whose hook dispatch ordering and
  lifecycle flags are specified in spec.md section 4.2 and exercised by the
  test file src/unnamed/part_000.

The user function of the function-based variant is abstracted by the predicate
`ret : Nat -> Bool` saying whether its n-th run returns a Teardown, and by
`reads : Nat -> List Nat` giving the set of reactive cells its n-th run reads
(autotracking, spec.md sections 4.3 and 9).  Traces record every user-visible
invocation: function runs and Teardown invocations for the function-based
variant, hook calls (together with the flags and element the hook observes)
for the hook-object variant.
-/

namespace EmberModifier

/-- A count of occurrences of an element in a list, used to state the
"exactly once" parts of the lifecycle contract. -/
def occCount {α : Type} [DecidableEq α] (a : α) : List α → Nat
  | [] => 0
  | x :: xs => (if x = a then 1 else 0) + occCount a xs

theorem occCount_nil {α : Type} [DecidableEq α] (a : α) : occCount a ([] : List α) = 0 :=
  rfl

theorem occCount_cons {α : Type} [DecidableEq α] (a x : α) (xs : List α) :
    occCount a (x :: xs) = (if x = a then 1 else 0) + occCount a xs :=
  rfl

theorem occCount_append {α : Type} [DecidableEq α] (a : α) (l m : List α) :
    occCount a (l ++ m) = occCount a l + occCount a m := by
  induction l with
  | nil => simp [occCount]
  | cons x xs ih => simp [occCount, ih, Nat.add_assoc]

/-! ## Function-based variant -/

/-- Host extension points for the function-based variant
(spec.md section 6: install / update / destroy). -/
inductive FEvent
  | install
  | update
  | destroy
deriving DecidableEq

/-- User-visible invocations made by the function-based manager: the n-th run
of the user function, and the invocation of the Teardown returned by run n. -/
inductive Action
  | runFn (n : Nat)
  | invokeTeardown (n : Nat)
deriving DecidableEq

/-- The state of a function-based Modifier Instance (spec.md section 3):
number of runs performed so far, the run index whose returned Teardown is
still pending (if any), the set of reactive cells read during the most
recent run, and the lifecycle flags. -/
structure FnInstance where
  runCount : Nat
  pending : Option Nat
  readSet : List Nat
  installed : Bool
  isDestroying : Bool
  isDestroyed : Bool
deriving DecidableEq

/-- A freshly created instance: no runs, no pending Teardown, not installed. -/
def FnInstance.start : FnInstance :=
  ⟨0, none, [], false, false, false⟩

/-- Invoking a pending Teardown: one `invokeTeardown` action when a Teardown
is pending, nothing otherwise (absence of a Teardown is legal and skipped,
spec.md section 4.3 edge case). -/
def tdActs : Option Nat → List Action
  | some n => [Action.invokeTeardown n]
  | none => []

/-- The pending-Teardown record left by run n: present exactly when run n
returned a Teardown. -/
def pnd (ret : Nat → Bool) (n : Nat) : Option Nat :=
  if ret n then some n else none

/-- Modelled from the spec: `installModifier` of FunctionBasedModifierManager
(its file, function-based/modifier-manager.ts, is not among the sources
under src/).  Spec.md section 4.3 item 1: run the function with the element
and the initial Argument Snapshot, capture the returned Teardown (if any) as
pending; the run establishes the read set (autotracking). -/
def fnInstall (ret : Nat → Bool) (reads : Nat → List Nat) (s : FnInstance) :
    FnInstance × List Action :=
  ({ s with
      installed := true
      runCount := s.runCount + 1
      pending := pnd ret s.runCount
      readSet := reads s.runCount },
   [Action.runFn s.runCount])

/-- Modelled from the spec: `updateModifier` of FunctionBasedModifierManager
(file not among the sources).  Spec.md section 4.3 item 2: first invoke the
pending Teardown (if present) with no arguments and discard it, then re-run
the function, capturing any newly returned Teardown. -/
def fnUpdate (ret : Nat → Bool) (reads : Nat → List Nat) (s : FnInstance) :
    FnInstance × List Action :=
  ({ s with
      runCount := s.runCount + 1
      pending := pnd ret s.runCount
      readSet := reads s.runCount },
   tdActs s.pending ++ [Action.runFn s.runCount])

/-- Modelled from the spec: the start of the Destroy transition; spec.md
section 4.1 invariant: `isDestroying` is readable as true from the beginning
of the Destroy transition, before any teardown callback runs. -/
def fnBeginDestroy (s : FnInstance) : FnInstance :=
  { s with isDestroying := true }

/-- Modelled from the spec: finalization of the Destroy transition; spec.md
section 4.1: `isDestroyed` becomes true only after all teardown work
completes, and the element reference is released. -/
def fnFinalizeDestroy (s : FnInstance) : FnInstance :=
  { s with isDestroyed := true, pending := none, installed := false }

/-- Modelled from the spec: `destroyModifier` of FunctionBasedModifierManager
(file not among the sources).  Spec.md section 4.3 item 3: invoke the pending
Teardown (if present) exactly once, then release the instance; the two
sub-phases run back-to-back. -/
def fnDestroy (s : FnInstance) : FnInstance × List Action :=
  let s1 := fnBeginDestroy s
  (fnFinalizeDestroy s1, tdActs s1.pending)

/-- One host extension-point call on a function-based instance. -/
def fnStep (ret : Nat → Bool) (reads : Nat → List Nat) (s : FnInstance) :
    FEvent → FnInstance × List Action
  | FEvent.install => fnInstall ret reads s
  | FEvent.update => fnUpdate ret reads s
  | FEvent.destroy => fnDestroy s

/-- Modelled from the spec: one render flush for a function-based instance.
The host consults the tracking tag and calls `update` only when a reactive
cell read by the previous run has been written (spec.md sections 4.3, 6, 9);
`w` is the set of cells written since the previous flush. -/
def fnFlush (ret : Nat → Bool) (reads : Nat → List Nat) (s : FnInstance)
    (w : List Nat) : FnInstance × List Action :=
  if s.installed = true ∧ s.isDestroying = false ∧ s.isDestroyed = false ∧
      ∃ c ∈ w, c ∈ s.readSet then
    fnUpdate ret reads s
  else
    (s, [])

/-- Run a function-based instance through a list of host events, collecting
the trace of user-visible invocations. -/
def fnRun (ret : Nat → Bool) (reads : Nat → List Nat) :
    FnInstance → List FEvent → FnInstance × List Action
  | s, [] => (s, [])
  | s, e :: es =>
    let p := fnStep ret reads s e
    let q := fnRun ret reads p.1 es
    (q.1, p.2 ++ q.2)

/-- The well-formed host event sequences for one instance (spec.md section
4.1): one install, then `k` updates, then (when `d`) one final destroy. -/
def fnWF (k : Nat) (d : Bool) : List FEvent :=
  FEvent.install :: (List.replicate k FEvent.update ++
    if d then [FEvent.destroy] else [])

/-- The trace of a fresh function-based instance over a host event list. -/
def fnTrace (ret : Nat → Bool) (reads : Nat → List Nat) (evts : List FEvent) :
    List Action :=
  (fnRun ret reads FnInstance.start evts).2

/-! ## Hook-object (class-based) variant -/

/-- The lifecycle hooks of the hook-object variant (spec.md section 4.2; the
hook names appear in the test file src/unnamed/part_000). -/
inductive Hook
  | constructor
  | didReceiveArguments
  | didUpdateArguments
  | didInstall
  | willRemove
  | willDestroy
deriving DecidableEq

/-- One hook invocation as observed by the user code: the hook that fired and
the values of `isDestroying`, `isDestroyed` and `element` readable at the
start of the hook body (exactly what the callback in testHook of
src/unnamed/part_000 lines 62 to 67 and 108 to 152 asserts on). -/
structure HookCall where
  hook : Hook
  isDestroying : Bool
  isDestroyed : Bool
  element : Option Nat
deriving DecidableEq

/-- Host extension points for the hook-object variant: create the object,
install it on an element, a render flush (carrying the set of reactive cells
written since the previous flush), and destroy. -/
inductive HEvent
  | create
  | install
  | flush (writes : List Nat)
  | destroy
deriving DecidableEq

/-- The state of a hook-object Modifier Instance (spec.md sections 3 and
4.2): the bound element (present only between install and the completion of
teardown), the installed flag, the index of the next run, the set of cells
read by the most recent run, and the lifecycle flags exposed to user code as
`isDestroying` and `isDestroyed`. -/
structure HookInstance where
  element : Option Nat
  installed : Bool
  runIdx : Nat
  readSet : List Nat
  isDestroying : Bool
  isDestroyed : Bool
deriving DecidableEq

/-- A freshly created instance: no element, not installed, no runs. -/
def HookInstance.start : HookInstance :=
  ⟨none, false, 0, [], false, false⟩

/-- The observation a hook body makes when dispatched on state `s`. -/
def HookInstance.call (s : HookInstance) (h : Hook) : HookCall :=
  ⟨h, s.isDestroying, s.isDestroyed, s.element⟩

/-- Modelled from the spec: `createModifier` of the class-based manager (its
source file is not among the sources under src/).  Spec.md section 4.1
Create: the object is constructed with the initial Argument Snapshot, the
element not yet available; the constructor observes a null element
(testHook with name constructor and element false in src/unnamed/part_000). -/
def hookCreate (s : HookInstance) : HookInstance × List HookCall :=
  (s, [s.call Hook.constructor])

/-- Modelled from the spec: `installModifier` of the class-based manager
(file not among the sources under src/).  Spec.md section 4.2 item 1:
commit the element reference, then dispatch didReceiveArguments followed by
didInstall; the first run establishes the read set. -/
def hookInstall (reads : Nat → List Nat) (el : Nat) (s : HookInstance) :
    HookInstance × List HookCall :=
  let s1 : HookInstance :=
    { s with element := some el, installed := true, runIdx := 1, readSet := reads 0 }
  (s1, [s1.call Hook.didReceiveArguments, s1.call Hook.didInstall])

/-- Modelled from the spec: `updateModifier` of the class-based manager (file
not among the sources under src/).  Spec.md section 4.2 item 2: on an Update
where arguments changed, dispatch didUpdateArguments followed by
didReceiveArguments; the re-run re-establishes the read set. -/
def hookUpdate (reads : Nat → List Nat) (s : HookInstance) :
    HookInstance × List HookCall :=
  ({ s with runIdx := s.runIdx + 1, readSet := reads s.runIdx },
   [s.call Hook.didUpdateArguments, s.call Hook.didReceiveArguments])

/-- Modelled from the spec: the start of the Destroy transition; spec.md
section 4.2 item 4: `isDestroying` is true from the start of willRemove. -/
def hookBeginDestroy (s : HookInstance) : HookInstance :=
  { s with isDestroying := true }

/-- Modelled from the spec: finalization of the Destroy transition; spec.md
sections 4.1 and 4.2: `isDestroyed` becomes true only after willDestroy
returns, and the element reads as absent after teardown completes. -/
def hookFinalizeDestroy (s : HookInstance) : HookInstance :=
  { s with isDestroyed := true, element := none, installed := false }

/-- Modelled from the spec: `destroyModifier` of the class-based manager
(file not among the sources under src/).  Spec.md section 4.2 item 4:
willRemove then willDestroy, back-to-back, with `isDestroying` true from the
start of willRemove and `isDestroyed` true only after willDestroy returns. -/
def hookDestroy (s : HookInstance) : HookInstance × List HookCall :=
  let s1 := hookBeginDestroy s
  (hookFinalizeDestroy s1, [s1.call Hook.willRemove, s1.call Hook.willDestroy])

/-- One host extension-point call on a hook-object instance.  A flush
dispatches an Update only when the instance is installed, not destroying,
and a reactive cell read by the previous run has been written (spec.md
sections 4.1 item Update, 4.2 item 3, and 9). -/
def hookStep (reads : Nat → List Nat) (el : Nat) (s : HookInstance) :
    HEvent → HookInstance × List HookCall
  | HEvent.create => hookCreate s
  | HEvent.install => hookInstall reads el s
  | HEvent.flush w =>
    if s.installed = true ∧ s.isDestroying = false ∧ s.isDestroyed = false ∧
        ∃ c ∈ w, c ∈ s.readSet then
      hookUpdate reads s
    else
      (s, [])
  | HEvent.destroy => hookDestroy s

/-- Run a hook-object instance through a list of host events, collecting the
trace of hook invocations. -/
def hookRun (reads : Nat → List Nat) (el : Nat) :
    HookInstance → List HEvent → HookInstance × List HookCall
  | s, [] => (s, [])
  | s, e :: es =>
    let p := hookStep reads el s e
    let q := hookRun reads el p.1 es
    (q.1, p.2 ++ q.2)

/-- The well-formed host event sequences for one hook-object instance
(spec.md section 4.1): create, install, a sequence of render flushes, and a
final destroy. -/
def hookWF (ws : List (List Nat)) : List HEvent :=
  HEvent.create :: HEvent.install :: (ws.map HEvent.flush ++ [HEvent.destroy])

/-- The trace of a fresh hook-object instance over a host event list. -/
def hookTrace (reads : Nat → List Nat) (el : Nat) (evts : List HEvent) :
    List HookCall :=
  (hookRun reads el HookInstance.start evts).2

/-- The pair of hook calls emitted by one argument-changing Update while
installed on element `el` (spec.md section 4.2 item 2). -/
def updatePair (el : Nat) : List HookCall :=
  [⟨Hook.didUpdateArguments, false, false, some el⟩,
   ⟨Hook.didReceiveArguments, false, false, some el⟩]

/-- The number of flushes in a flush sequence in which some reactive cell
read by the instance's most recent run is written: `rs` is the current read
set, `i` the index of the next run.  This counts exactly the flushes in
which a read-tracked value this instance consumed changed. -/
def countInvalid (reads : Nat → List Nat) : List Nat → Nat → List (List Nat) → Nat
  | _, _, [] => 0
  | rs, i, w :: ws =>
    if ∃ c ∈ w, c ∈ rs then 1 + countInvalid reads (reads i) (i + 1) ws
    else countInvalid reads rs i ws

/-! ## The modifier function (function-based/modifier.ts under src/addon) -/

/-- The two variants of the Modifier Manager (spec.md sections 3 and 9). -/
inductive ModifierVariant
  | functionBased
  | hookObject
deriving DecidableEq

/-- Modelled from the spec: the FunctionBasedModifierManager class (its file,
function-based/modifier-manager.ts, is not among the sources under src/);
spec.md section 3: stateless except for the enumeration of its variant, with
no per-binding mutable state. -/
structure FunctionBasedModifierManager where
  variant : ModifierVariant
deriving DecidableEq

/-- The singleton manager of function-based/modifier.ts line 12:
a single process-wide instance constructed once at module evaluation. -/
def MANAGER : FunctionBasedModifierManager :=
  ⟨ModifierVariant.functionBased⟩

/-- The runtime association produced by `setModifierManager`: a manager
factory paired with the user definition it was applied to. -/
structure ModifierDefinition (F : Type) where
  managerFactory : Unit → FunctionBasedModifierManager
  fn : F
deriving DecidableEq

/-- The external collaborator `setModifierManager` from the `@ember/modifier`
module: it associates the manager factory with the definition and returns
the definition (the cast in function-based/modifier.ts lines 118 to 132 adds
no runtime wrapper). -/
def setModifierManager {F : Type} (factory : Unit → FunctionBasedModifierManager)
    (fn : F) : ModifierDefinition F :=
  ⟨factory, fn⟩

/-- The runtime body of the default export `modifier` of
function-based/modifier.ts lines 105 to 132: it returns the result of
`setModifierManager` applied to a factory yielding the singleton MANAGER and
to the user function, unchanged. -/
def modifier {F : Type} (fn : F) : ModifierDefinition F :=
  setModifierManager (fun _ => MANAGER) fn

/-! ## Closed form of the function-based trace -/

/-- The Teardown invocation owed to run `n`: one `invokeTeardown n` action
when run `n` returned a Teardown, nothing otherwise. -/
def tdOpt (ret : Nat → Bool) (n : Nat) : List Action :=
  if ret n then [Action.invokeTeardown n] else []

theorem tdActs_pnd (ret : Nat → Bool) (n : Nat) : tdActs (pnd ret n) = tdOpt ret n := by
  cases h : ret n <;> simp [tdActs, pnd, tdOpt, h]

/-- The trace segment produced by `j` consecutive updates when the most
recent run so far is run `start`: each update first invokes the pending
Teardown (if any), then performs the next run. -/
def runsTrace (ret : Nat → Bool) : Nat → Nat → List Action
  | _, 0 => []
  | start, j + 1 =>
    tdOpt ret start ++ Action.runFn (start + 1) :: runsTrace ret (start + 1) j

theorem fnRun_append (ret : Nat → Bool) (reads : Nat → List Nat)
    (s : FnInstance) (l1 l2 : List FEvent) :
    fnRun ret reads s (l1 ++ l2) =
      ((fnRun ret reads (fnRun ret reads s l1).1 l2).1,
       (fnRun ret reads s l1).2 ++ (fnRun ret reads (fnRun ret reads s l1).1 l2).2) := by
  induction l1 generalizing s with
  | nil => simp [fnRun]
  | cons e es ih => simp [fnRun, ih]

/-- The state of a function-based instance whose most recent run is run `m`:
`m + 1` runs so far, run `m`'s Teardown pending (when returned), read set
established by run `m`. -/
def fnMid (ret : Nat → Bool) (reads : Nat → List Nat) (m : Nat) : FnInstance :=
  ⟨m + 1, pnd ret m, reads m, true, false, false⟩

theorem fnRun_updates (ret : Nat → Bool) (reads : Nat → List Nat) (j : Nat) :
    ∀ m, fnRun ret reads (fnMid ret reads m) (List.replicate j FEvent.update) =
      (fnMid ret reads (m + j), runsTrace ret m j) := by
  induction j with
  | zero => intro m; simp [fnRun, runsTrace]
  | succ j ih =>
    intro m
    rw [List.replicate_succ]
    have hstep : fnStep ret reads (fnMid ret reads m) FEvent.update =
        (fnMid ret reads (m + 1), tdOpt ret m ++ [Action.runFn (m + 1)]) := by
      simp [fnStep, fnUpdate, fnMid, tdActs_pnd]
    simp only [fnRun, hstep, ih (m + 1)]
    have harith : m + 1 + j = m + (j + 1) := by omega
    rw [harith]
    simp [runsTrace]

theorem fnRun_wfFalse (ret : Nat → Bool) (reads : Nat → List Nat) (k : Nat) :
    fnRun ret reads FnInstance.start (fnWF k false) =
      (fnMid ret reads k, Action.runFn 0 :: runsTrace ret 0 k) := by
  have hstep : fnStep ret reads FnInstance.start FEvent.install =
      (fnMid ret reads 0, [Action.runFn 0]) := by
    simp [fnStep, fnInstall, FnInstance.start, fnMid]
  have h : fnWF k false = FEvent.install :: List.replicate k FEvent.update := by
    simp [fnWF]
  rw [h]
  simp only [fnRun, hstep, fnRun_updates ret reads k 0]
  simp

theorem fnRun_wfTrue (ret : Nat → Bool) (reads : Nat → List Nat) (k : Nat) :
    fnRun ret reads FnInstance.start (fnWF k true) =
      (fnFinalizeDestroy (fnBeginDestroy (fnMid ret reads k)),
       (Action.runFn 0 :: runsTrace ret 0 k) ++ tdOpt ret k) := by
  have h : fnWF k true = fnWF k false ++ [FEvent.destroy] := by simp [fnWF]
  rw [h, fnRun_append, fnRun_wfFalse]
  simp [fnRun, fnStep, fnDestroy, fnBeginDestroy, fnMid, tdActs_pnd]

theorem fnTrace_wfFalse (ret : Nat → Bool) (reads : Nat → List Nat) (k : Nat) :
    fnTrace ret reads (fnWF k false) = Action.runFn 0 :: runsTrace ret 0 k := by
  simp [fnTrace, fnRun_wfFalse]

theorem fnTrace_wfTrue (ret : Nat → Bool) (reads : Nat → List Nat) (k : Nat) :
    fnTrace ret reads (fnWF k true) =
      (Action.runFn 0 :: runsTrace ret 0 k) ++ tdOpt ret k := by
  simp [fnTrace, fnRun_wfTrue]

theorem mem_tdOpt {ret : Nat → Bool} {n : Nat} {a : Action} :
    a ∈ tdOpt ret n → a = Action.invokeTeardown n := by
  cases h : ret n <;> simp [tdOpt, h]

theorem occCount_tdOpt (ret : Nat → Bool) (n m : Nat) (hret : ret n = true) :
    occCount (Action.invokeTeardown n) (tdOpt ret m) = if m = n then 1 else 0 := by
  by_cases hmn : m = n
  · subst hmn
    simp [tdOpt, hret, occCount]
  · cases h : ret m <;> simp [tdOpt, h, occCount, hmn]

theorem occCount_runsTrace (ret : Nat → Bool) (n : Nat) (hret : ret n = true) :
    ∀ j start, occCount (Action.invokeTeardown n) (runsTrace ret start j) =
      if start ≤ n ∧ n < start + j then 1 else 0 := by
  intro j
  induction j with
  | zero =>
    intro start
    rw [runsTrace, if_neg]
    · rfl
    · omega
  | succ j ih =>
    intro start
    rw [runsTrace, occCount_append, occCount_cons,
      occCount_tdOpt ret n start hret, ih (start + 1)]
    have hz : (if Action.runFn (start + 1) = Action.invokeTeardown n then (1 : Nat) else 0) = 0 := by
      simp
    rw [hz]
    split_ifs <;> omega

theorem runsTrace_decomp (ret : Nat → Bool) (n : Nat) (hret : ret n = true) :
    ∀ j start, start ≤ n → n < start + j →
      ∃ A B, runsTrace ret start j = A ++ Action.invokeTeardown n :: B ∧
        Action.invokeTeardown n ∉ A ∧ Action.runFn (n + 1) ∉ A ∧
        Action.runFn (n + 1) ∈ B := by
  intro j
  induction j with
  | zero =>
    intro start h1 h2
    omega
  | succ j ih =>
    intro start h1 h2
    rcases Nat.eq_or_lt_of_le h1 with heq | hlt
    · subst heq
      refine ⟨[], Action.runFn (start + 1) :: runsTrace ret (start + 1) j, ?_, ?_, ?_, ?_⟩
      · simp [runsTrace, tdOpt, hret]
      · simp
      · simp
      · simp
    · obtain ⟨A, B, hAB, hA1, hA2, hB⟩ := ih (start + 1) hlt (by omega)
      refine ⟨tdOpt ret start ++ Action.runFn (start + 1) :: A, B, ?_, ?_, ?_, hB⟩
      · rw [runsTrace, hAB]
        simp
      · intro hmem
        rcases List.mem_append.mp hmem with h | h
        · have := mem_tdOpt h
          have : start = n := by
            injection this.symm
          omega
        · rcases List.mem_cons.mp h with h | h
          · exact absurd h.symm (by simp)
          · exact hA1 h
      · intro hmem
        rcases List.mem_append.mp hmem with h | h
        · have := mem_tdOpt h
          simp at this
        · rcases List.mem_cons.mp h with h | h
          · have : start = n := by
              injection h.symm with h2
              omega
            omega
          · exact hA2 h

/-- C1: for every sequence of runs of a function-based instance, the
Teardown returned by run N is invoked exactly once, strictly before run N+1
begins; and a Teardown still pending from the most recent run is invoked
exactly once more at destroy, after which no further invocations occur. -/
theorem c1_fn_teardown_protocol (ret : Nat → Bool) (reads : Nat → List Nat)
    (k n : Nat) (hn : n ≤ k) (hret : ret n = true) :
    occCount (Action.invokeTeardown n) (fnTrace ret reads (fnWF k true)) = 1 ∧
    (n < k → ∃ A B,
      fnTrace ret reads (fnWF k true) = A ++ Action.invokeTeardown n :: B ∧
      Action.invokeTeardown n ∉ A ∧ Action.runFn (n + 1) ∉ A ∧
      Action.runFn (n + 1) ∈ B) ∧
    (n < k → occCount (Action.invokeTeardown n) (fnTrace ret reads (fnWF k false)) = 1) ∧
    (n = k → occCount (Action.invokeTeardown n) (fnTrace ret reads (fnWF k false)) = 0 ∧
      fnTrace ret reads (fnWF k true) =
        fnTrace ret reads (fnWF k false) ++ [Action.invokeTeardown n]) := by
  have hT := fnTrace_wfTrue ret reads k
  have hF := fnTrace_wfFalse ret reads k
  have hcF : occCount (Action.invokeTeardown n) (fnTrace ret reads (fnWF k false)) =
      if n < k then 1 else 0 := by
    rw [hF, occCount_cons, occCount_runsTrace ret n hret k 0]
    have hz : (if Action.runFn 0 = Action.invokeTeardown n then (1 : Nat) else 0) = 0 := by
      simp
    rw [hz]
    split_ifs <;> omega
  have hcF2 := hcF
  rw [hF] at hcF2
  refine ⟨?_, ?_, ?_, ?_⟩
  · rw [hT, occCount_append, occCount_tdOpt ret n k hret, hcF2]
    split_ifs <;> omega
  · intro hlt
    obtain ⟨A, B, hAB, hA1, hA2, hB⟩ :=
      runsTrace_decomp ret n hret k 0 (Nat.zero_le n) (by omega)
    refine ⟨Action.runFn 0 :: A, B ++ tdOpt ret k, ?_, ?_, ?_, ?_⟩
    · rw [hT, hAB]
      simp
    · intro hmem
      rcases List.mem_cons.mp hmem with h | h
      · simp at h
      · exact hA1 h
    · intro hmem
      rcases List.mem_cons.mp hmem with h | h
      · have : (0 : Nat) = n + 1 := by
          injection h.symm
        omega
      · exact hA2 h
    · exact List.mem_append.mpr (Or.inl hB)
  · intro hlt
    rw [hcF, if_pos hlt]
  · intro heq
    subst heq
    constructor
    · rw [hcF, if_neg (by omega)]
    · rw [hT, hF]
      simp [tdOpt, hret]

/-- C7: a function-based modifier that returns no Teardown is valid; update
and destroy simply skip the Teardown invocation when none is pending; and
when a later run does return a Teardown, destroy invokes it exactly once. -/
theorem c7_fn_missing_teardown (ret : Nat → Bool) (reads : Nat → List Nat) :
    (∀ k, ret k = false →
      fnTrace ret reads (fnWF k true) = fnTrace ret reads (fnWF k false)) ∧
    (∀ s : FnInstance, s.pending = none →
      (fnUpdate ret reads s).2 = [Action.runFn s.runCount]) ∧
    (∀ s : FnInstance, s.pending = none →
      fnDestroy s = (fnFinalizeDestroy (fnBeginDestroy s), [])) ∧
    (ret 0 = false → ret 1 = true →
      fnTrace ret reads (fnWF 1 true) =
        [Action.runFn 0, Action.runFn 1, Action.invokeTeardown 1] ∧
      occCount (Action.invokeTeardown 1) (fnTrace ret reads (fnWF 1 true)) = 1 ∧
      occCount (Action.invokeTeardown 0) (fnTrace ret reads (fnWF 1 true)) = 0) := by
  refine ⟨?_, ?_, ?_, ?_⟩
  · intro k hk
    rw [fnTrace_wfTrue, fnTrace_wfFalse]
    simp [tdOpt, hk]
  · intro s hs
    simp [fnUpdate, hs, tdActs]
  · intro s hs
    simp [fnDestroy, fnBeginDestroy, hs, tdActs]
  · intro h0 h1
    have hT := fnTrace_wfTrue ret reads 1
    rw [hT]
    rw [show runsTrace ret 0 1 = tdOpt ret 0 ++ Action.runFn 1 :: runsTrace ret 1 0 from rfl]
    rw [show runsTrace ret 1 0 = [] from rfl]
    simp [tdOpt, h0, h1, occCount]

/-! ## Closed form of the hook-object trace -/

theorem hookRun_append (reads : Nat → List Nat) (el : Nat)
    (s : HookInstance) (l1 l2 : List HEvent) :
    hookRun reads el s (l1 ++ l2) =
      ((hookRun reads el (hookRun reads el s l1).1 l2).1,
       (hookRun reads el s l1).2 ++ (hookRun reads el (hookRun reads el s l1).1 l2).2) := by
  induction l1 generalizing s with
  | nil => simp [hookRun]
  | cons e es ih => simp [hookRun, ih]

/-- The state of an installed, not yet destroying hook-object instance bound
to element `el`, with next run index `i` and current read set `rs`. -/
def hookMid (el : Nat) (i : Nat) (rs : List Nat) : HookInstance :=
  ⟨some el, true, i, rs, false, false⟩

theorem hookRun_flushes (reads : Nat → List Nat) (el : Nat) :
    ∀ ws (i : Nat) (rs : List Nat), ∃ i2 rs2,
      hookRun reads el (hookMid el i rs) (ws.map HEvent.flush) =
        (hookMid el i2 rs2,
         List.flatten (List.replicate (countInvalid reads rs i ws) (updatePair el))) := by
  intro ws
  induction ws with
  | nil =>
    intro i rs
    exact ⟨i, rs, by simp [hookRun, countInvalid]⟩
  | cons w ws ih =>
    intro i rs
    by_cases hinv : ∃ c ∈ w, c ∈ rs
    · obtain ⟨i2, rs2, h⟩ := ih (i + 1) (reads i)
      refine ⟨i2, rs2, ?_⟩
      have hstep : hookStep reads el (hookMid el i rs) (HEvent.flush w) =
          (hookMid el (i + 1) (reads i), updatePair el) := by
        simp only [hookStep]
        rw [if_pos ⟨rfl, rfl, rfl, hinv⟩]
        simp [hookUpdate, hookMid, HookInstance.call, updatePair]
      simp only [List.map_cons, hookRun, hstep, h]
      rw [show countInvalid reads rs i (w :: ws) =
          1 + countInvalid reads (reads i) (i + 1) ws from by
        rw [countInvalid, if_pos hinv]]
      rw [show 1 + countInvalid reads (reads i) (i + 1) ws =
          countInvalid reads (reads i) (i + 1) ws + 1 from by omega]
      simp [List.replicate_succ]
    · obtain ⟨i2, rs2, h⟩ := ih i rs
      refine ⟨i2, rs2, ?_⟩
      have hstep : hookStep reads el (hookMid el i rs) (HEvent.flush w) =
          (hookMid el i rs, []) := by
        simp only [hookStep]
        rw [if_neg (fun hcon => hinv hcon.2.2.2)]
      simp only [List.map_cons, hookRun, hstep, h]
      rw [show countInvalid reads rs i (w :: ws) = countInvalid reads rs i ws from by
        rw [countInvalid, if_neg hinv]]
      simp

theorem hookRun_wf (reads : Nat → List Nat) (el : Nat) (ws : List (List Nat)) :
    ∃ i2 rs2,
      hookRun reads el HookInstance.start (hookWF ws) =
        (⟨none, false, i2, rs2, true, true⟩,
         ⟨Hook.constructor, false, false, none⟩ ::
         ⟨Hook.didReceiveArguments, false, false, some el⟩ ::
         ⟨Hook.didInstall, false, false, some el⟩ ::
         (List.flatten (List.replicate (countInvalid reads (reads 0) 1 ws) (updatePair el)) ++
          [⟨Hook.willRemove, true, false, some el⟩,
           ⟨Hook.willDestroy, true, false, some el⟩])) := by
  obtain ⟨i2, rs2, hf⟩ := hookRun_flushes reads el ws 1 (reads 0)
  refine ⟨i2, rs2, ?_⟩
  have h1 : hookStep reads el HookInstance.start HEvent.create =
      (HookInstance.start, [⟨Hook.constructor, false, false, none⟩]) := by
    simp [hookStep, hookCreate, HookInstance.start, HookInstance.call]
  have h2 : hookStep reads el HookInstance.start HEvent.install =
      (hookMid el 1 (reads 0),
       [⟨Hook.didReceiveArguments, false, false, some el⟩,
        ⟨Hook.didInstall, false, false, some el⟩]) := by
    simp [hookStep, hookInstall, HookInstance.start, hookMid, HookInstance.call]
  have h3 : hookStep reads el (hookMid el i2 rs2) HEvent.destroy =
      (⟨none, false, i2, rs2, true, true⟩,
       [⟨Hook.willRemove, true, false, some el⟩,
        ⟨Hook.willDestroy, true, false, some el⟩]) := by
    simp [hookStep, hookDestroy, hookBeginDestroy, hookFinalizeDestroy, hookMid,
      HookInstance.call]
  have hsplit : hookWF ws =
      HEvent.create :: HEvent.install :: (ws.map HEvent.flush ++ [HEvent.destroy]) := rfl
  rw [hsplit]
  simp only [hookRun, h1, h2]
  rw [hookRun_append reads el (hookMid el 1 (reads 0)) (ws.map HEvent.flush)
    [HEvent.destroy], hf]
  simp only [hookRun, h3]
  simp

theorem mem_join_replicate {α : Type} {c : α} {m : Nat} {p : List α} :
    c ∈ List.flatten (List.replicate m p) → c ∈ p := by
  induction m with
  | zero => simp
  | succ m ih =>
    intro h
    rw [List.replicate_succ, List.flatten_cons] at h
    rcases List.mem_append.mp h with h | h
    · exact h
    · exact ih h

/-- Every hook call in the trace of a well-formed run is one of the six
possible observations. -/
theorem mem_hookTrace (reads : Nat → List Nat) (el : Nat) (ws : List (List Nat))
    (c : HookCall) (hc : c ∈ hookTrace reads el (hookWF ws)) :
    c = ⟨Hook.constructor, false, false, none⟩ ∨
    c = ⟨Hook.didReceiveArguments, false, false, some el⟩ ∨
    c = ⟨Hook.didInstall, false, false, some el⟩ ∨
    c = ⟨Hook.didUpdateArguments, false, false, some el⟩ ∨
    c = ⟨Hook.willRemove, true, false, some el⟩ ∨
    c = ⟨Hook.willDestroy, true, false, some el⟩ := by
  obtain ⟨i2, rs2, h⟩ := hookRun_wf reads el ws
  rw [hookTrace, h] at hc
  simp only [List.mem_cons, List.mem_append] at hc
  rcases hc with h | h | h | h
  · exact Or.inl h
  · exact Or.inr (Or.inl h)
  · exact Or.inr (Or.inr (Or.inl h))
  · rcases h with h | h
    · have := mem_join_replicate h
      simp only [updatePair, List.mem_cons, List.not_mem_nil] at this
      rcases this with h | h | h
      · exact Or.inr (Or.inr (Or.inr (Or.inl h)))
      · exact Or.inr (Or.inl h)
      · exact absurd h (by simp)
    · simp only [List.mem_cons, List.not_mem_nil] at h
      rcases h with h | h | h
      · exact Or.inr (Or.inr (Or.inr (Or.inr (Or.inl h))))
      · exact Or.inr (Or.inr (Or.inr (Or.inr (Or.inr h))))
      · exact absurd h (by simp)

/-! ## Ordering of hook invocations -/

/-- The hooks fired by a trace, in order. -/
def hookNames (t : List HookCall) : List Hook :=
  t.map HookCall.hook

theorem map_flatten_replicate {α β : Type} (f : α → β) (m : Nat) (p : List α) :
    List.map f (List.flatten (List.replicate m p)) =
      List.flatten (List.replicate m (List.map f p)) := by
  induction m with
  | zero => simp
  | succ m ih =>
    rw [List.replicate_succ, List.replicate_succ, List.flatten_cons,
      List.flatten_cons, List.map_append, ih]

theorem hookNames_wf (reads : Nat → List Nat) (el : Nat) (ws : List (List Nat)) :
    hookNames (hookTrace reads el (hookWF ws)) =
      Hook.constructor :: Hook.didReceiveArguments :: Hook.didInstall ::
      (List.flatten (List.replicate (countInvalid reads (reads 0) 1 ws)
          [Hook.didUpdateArguments, Hook.didReceiveArguments]) ++
       [Hook.willRemove, Hook.willDestroy]) := by
  obtain ⟨i2, rs2, h⟩ := hookRun_wf reads el ws
  rw [hookNames, hookTrace, h]
  simp [map_flatten_replicate, updatePair]

/-- The shape of the portion of the hook sequence from the first Update
onward: some number of didUpdateArguments-didReceiveArguments pairs followed
by willRemove and willDestroy. -/
inductive UpdateBlocks : List Hook → Prop
  | done : UpdateBlocks [Hook.willRemove, Hook.willDestroy]
  | more (t : List Hook) : UpdateBlocks t →
      UpdateBlocks (Hook.didUpdateArguments :: Hook.didReceiveArguments :: t)

theorem updateBlocks_flatten (m : Nat) :
    UpdateBlocks (List.flatten (List.replicate m
        [Hook.didUpdateArguments, Hook.didReceiveArguments]) ++
      [Hook.willRemove, Hook.willDestroy]) := by
  induction m with
  | zero => exact UpdateBlocks.done
  | succ m ih =>
    rw [List.replicate_succ, List.flatten_cons]
    exact UpdateBlocks.more _ ih

theorem updateBlocks_adj {l : List Hook} (hl : UpdateBlocks l) :
    ∀ A B, l = A ++ Hook.didUpdateArguments :: B →
      B.head? = some Hook.didReceiveArguments := by
  induction hl with
  | done =>
    intro A B h
    rcases A with _ | ⟨a, _ | ⟨b, _ | ⟨c, A⟩⟩⟩ <;> simp_all
  | more t ht ih =>
    intro A B h
    rcases A with _ | ⟨a, _ | ⟨b, A⟩⟩
    · rw [List.nil_append] at h
      injection h with h1 h2
      rw [← h2]
      rfl
    · simp_all
    · obtain ⟨h1, h2, h3⟩ : Hook.didUpdateArguments = a ∧
          Hook.didReceiveArguments = b ∧ t = A ++ Hook.didUpdateArguments :: B := by
        simpa using h
      exact ih A B h3

theorem updateBlocks_willRemove_tail {l : List Hook} (hl : UpdateBlocks l) :
    ∀ A B, l = A ++ Hook.willRemove :: B → B = [Hook.willDestroy] := by
  induction hl with
  | done =>
    intro A B h
    rcases A with _ | ⟨a, _ | ⟨b, A⟩⟩ <;> simp_all
  | more t ht ih =>
    intro A B h
    rcases A with _ | ⟨a, _ | ⟨b, A⟩⟩
    · simp_all
    · simp_all
    · obtain ⟨h1, h2, h3⟩ : Hook.didUpdateArguments = a ∧
          Hook.didReceiveArguments = b ∧ t = A ++ Hook.willRemove :: B := by
        simpa using h
      exact ih A B h3

theorem occCount_flatten_replicate {α : Type} [DecidableEq α] (a : α) (m : Nat)
    (p : List α) :
    occCount a (List.flatten (List.replicate m p)) = m * occCount a p := by
  induction m with
  | zero => simp [occCount]
  | succ m ih =>
    rw [List.replicate_succ, List.flatten_cons, occCount_append, ih]
    ring

/-- C2: for every hook-object instance and flush sequence, didUpdateArguments
and didReceiveArguments fire as an adjacent pair in that order, exactly once
per flush in which a read-tracked value the instance consumed changed; the
pair never fires before didInstall has fired and never once Destroying has
begun. -/
theorem c2_hook_update_pairs (reads : Nat → List Nat) (el : Nat)
    (ws : List (List Nat)) :
    occCount Hook.didUpdateArguments (hookNames (hookTrace reads el (hookWF ws))) =
      countInvalid reads (reads 0) 1 ws ∧
    occCount Hook.didReceiveArguments (hookNames (hookTrace reads el (hookWF ws))) =
      countInvalid reads (reads 0) 1 ws + 1 ∧
    (∀ A B, hookNames (hookTrace reads el (hookWF ws)) =
        A ++ Hook.didUpdateArguments :: B →
      B.head? = some Hook.didReceiveArguments ∧ Hook.didInstall ∈ A) ∧
    (∀ A B, hookNames (hookTrace reads el (hookWF ws)) =
        A ++ Hook.willRemove :: B →
      Hook.didUpdateArguments ∉ B) := by
  rw [hookNames_wf reads el ws]
  refine ⟨?_, ?_, ?_, ?_⟩
  · rw [occCount_cons, occCount_cons, occCount_cons, occCount_append,
      occCount_flatten_replicate]
    simp [occCount]
  · rw [occCount_cons, occCount_cons, occCount_cons, occCount_append,
      occCount_flatten_replicate]
    simp [occCount]
    omega
  · intro A B h
    rcases A with _ | ⟨a, _ | ⟨b, _ | ⟨c, A⟩⟩⟩
    · simp_all
    · simp_all
    · simp_all
    · obtain ⟨h1, h2, h3, h4⟩ : Hook.constructor = a ∧ Hook.didReceiveArguments = b ∧
          Hook.didInstall = c ∧
          List.flatten (List.replicate (countInvalid reads (reads 0) 1 ws)
              [Hook.didUpdateArguments, Hook.didReceiveArguments]) ++
            [Hook.willRemove, Hook.willDestroy] =
            A ++ Hook.didUpdateArguments :: B := by
        simpa using h
      refine ⟨updateBlocks_adj (updateBlocks_flatten _) A B h4, ?_⟩
      rw [← h3]
      simp
  · intro A B h
    rcases A with _ | ⟨a, _ | ⟨b, _ | ⟨c, A⟩⟩⟩
    · simp_all
    · simp_all
    · simp_all
    · obtain ⟨h1, h2, h3, h4⟩ : Hook.constructor = a ∧ Hook.didReceiveArguments = b ∧
          Hook.didInstall = c ∧
          List.flatten (List.replicate (countInvalid reads (reads 0) 1 ws)
              [Hook.didUpdateArguments, Hook.didReceiveArguments]) ++
            [Hook.willRemove, Hook.willDestroy] =
            A ++ Hook.willRemove :: B := by
        simpa using h
      rw [updateBlocks_willRemove_tail (updateBlocks_flatten _) A B h4]
      simp

/-- C4: on Destroy of a hook-object instance, willRemove fires strictly
before willDestroy with nothing in between; isDestroying reads true from the
start of willRemove, and isDestroyed reads true only after willDestroy has
returned (false during every hook, true in the final state). -/
theorem c4_hook_destroy_order (reads : Nat → List Nat) (el : Nat)
    (ws : List (List Nat)) :
    (∃ X, hookTrace reads el (hookWF ws) =
        X ++ [⟨Hook.willRemove, true, false, some el⟩,
              ⟨Hook.willDestroy, true, false, some el⟩] ∧
      (∀ c ∈ X, c.hook ≠ Hook.willRemove ∧ c.hook ≠ Hook.willDestroy)) ∧
    (∀ c ∈ hookTrace reads el (hookWF ws), c.isDestroyed = false) ∧
    (hookRun reads el HookInstance.start (hookWF ws)).1.isDestroying = true ∧
    (hookRun reads el HookInstance.start (hookWF ws)).1.isDestroyed = true := by
  obtain ⟨i2, rs2, h⟩ := hookRun_wf reads el ws
  refine ⟨⟨⟨Hook.constructor, false, false, none⟩ ::
      ⟨Hook.didReceiveArguments, false, false, some el⟩ ::
      ⟨Hook.didInstall, false, false, some el⟩ ::
      List.flatten (List.replicate (countInvalid reads (reads 0) 1 ws)
        (updatePair el)), ?_, ?_⟩, ?_, ?_, ?_⟩
  · rw [hookTrace, h]
    simp
  · intro c hc
    simp only [List.mem_cons] at hc
    rcases hc with rfl | rfl | rfl | hc
    · exact ⟨by simp, by simp⟩
    · exact ⟨by simp, by simp⟩
    · exact ⟨by simp, by simp⟩
    · have hmem := mem_join_replicate hc
      have hcc : c = ⟨Hook.didUpdateArguments, false, false, some el⟩ ∨
          c = ⟨Hook.didReceiveArguments, false, false, some el⟩ := by
        simpa [updatePair] using hmem
      rcases hcc with rfl | rfl
      · exact ⟨by simp, by simp⟩
      · exact ⟨by simp, by simp⟩
  · intro c hc
    rcases mem_hookTrace reads el ws c hc with rfl | rfl | rfl | rfl | rfl | rfl <;> rfl
  · rw [h]
  · rw [h]

/-- C5: the Install transition of a hook-object instance executes exactly
construction, then didReceiveArguments, then didInstall, with nothing
interleaved, exactly once per instance and before any Update. -/
theorem c5_hook_install_sequence (reads : Nat → List Nat) (el : Nat)
    (ws : List (List Nat)) :
    (∃ T, hookTrace reads el (hookWF ws) =
        ⟨Hook.constructor, false, false, none⟩ ::
        ⟨Hook.didReceiveArguments, false, false, some el⟩ ::
        ⟨Hook.didInstall, false, false, some el⟩ :: T ∧
      (∀ c ∈ T, c.hook ≠ Hook.constructor ∧ c.hook ≠ Hook.didInstall)) ∧
    occCount Hook.constructor (hookNames (hookTrace reads el (hookWF ws))) = 1 ∧
    occCount Hook.didInstall (hookNames (hookTrace reads el (hookWF ws))) = 1 := by
  obtain ⟨i2, rs2, h⟩ := hookRun_wf reads el ws
  refine ⟨⟨List.flatten (List.replicate (countInvalid reads (reads 0) 1 ws)
      (updatePair el)) ++
      [⟨Hook.willRemove, true, false, some el⟩,
       ⟨Hook.willDestroy, true, false, some el⟩], ?_, ?_⟩, ?_, ?_⟩
  · rw [hookTrace, h]
  · intro c hc
    rcases List.mem_append.mp hc with hc | hc
    · have hmem := mem_join_replicate hc
      have hcc : c = ⟨Hook.didUpdateArguments, false, false, some el⟩ ∨
          c = ⟨Hook.didReceiveArguments, false, false, some el⟩ := by
        simpa [updatePair] using hmem
      rcases hcc with rfl | rfl
      · exact ⟨by simp, by simp⟩
      · exact ⟨by simp, by simp⟩
    · have hcc : c = ⟨Hook.willRemove, true, false, some el⟩ ∨
          c = ⟨Hook.willDestroy, true, false, some el⟩ := by
        simpa using hc
      rcases hcc with rfl | rfl
      · exact ⟨by simp, by simp⟩
      · exact ⟨by simp, by simp⟩
  · rw [hookNames_wf reads el ws, occCount_cons, occCount_cons, occCount_cons,
      occCount_append, occCount_flatten_replicate]
    simp [occCount]
  · rw [hookNames_wf reads el ws, occCount_cons, occCount_cons, occCount_cons,
      occCount_append, occCount_flatten_replicate]
    simp [occCount]

/-- C8: the element of a hook-object instance reads as absent before Install
commits it (in particular throughout the constructor), as the bound element
during didReceiveArguments, didUpdateArguments, didInstall, willRemove and
willDestroy, and as absent again after teardown completes. -/
theorem c8_hook_element_lifecycle (reads : Nat → List Nat) (el : Nat)
    (ws : List (List Nat)) :
    (∀ c ∈ hookTrace reads el (hookWF ws),
      c.hook = Hook.constructor → c.element = none) ∧
    (∀ c ∈ hookTrace reads el (hookWF ws),
      c.hook ≠ Hook.constructor → c.element = some el) ∧
    HookInstance.start.element = none ∧
    (hookRun reads el HookInstance.start [HEvent.create]).1.element = none ∧
    (hookRun reads el HookInstance.start (hookWF ws)).1.element = none := by
  obtain ⟨i2, rs2, h⟩ := hookRun_wf reads el ws
  refine ⟨?_, ?_, rfl, rfl, ?_⟩
  · intro c hc
    rcases mem_hookTrace reads el ws c hc with rfl | rfl | rfl | rfl | rfl | rfl
    · intro _
      rfl
    all_goals
      intro hcon
      simp at hcon
  · intro c hc
    rcases mem_hookTrace reads el ws c hc with rfl | rfl | rfl | rfl | rfl | rfl
    · intro hcon
      exact absurd rfl hcon
    all_goals
      intro _
      rfl
  · rw [h]

/-- C10: during constructor, didReceiveArguments, didUpdateArguments and
didInstall the instance reads isDestroying = false; during willRemove and
willDestroy it reads isDestroying = true; and isDestroyed reads false during
every hook, willDestroy included. -/
theorem c10_hook_flags_during_hooks (reads : Nat → List Nat) (el : Nat)
    (ws : List (List Nat)) :
    ∀ c ∈ hookTrace reads el (hookWF ws),
      c.isDestroyed = false ∧
      ((c.hook = Hook.constructor ∨ c.hook = Hook.didReceiveArguments ∨
        c.hook = Hook.didUpdateArguments ∨ c.hook = Hook.didInstall) →
        c.isDestroying = false) ∧
      ((c.hook = Hook.willRemove ∨ c.hook = Hook.willDestroy) →
        c.isDestroying = true) := by
  intro c hc
  rcases mem_hookTrace reads el ws c hc with rfl | rfl | rfl | rfl | rfl | rfl <;>
    exact ⟨rfl, by simp, by simp⟩

/-! ## Read-tracking: unread changes trigger nothing -/

theorem hookRun_skip (reads : Nat → List Nat) (el : Nat) (s : HookInstance)
    (e : HEvent) (rest : List HEvent) (h : hookStep reads el s e = (s, [])) :
    hookRun reads el s (e :: rest) = hookRun reads el s rest := by
  simp only [hookRun, h, List.nil_append]

/-- C3: for both variants, changing only reactive values that the modifier
never read during its previous run triggers zero re-runs and zero hook
invocations; an Update is triggered only by a change to a value actually
read during the previous execution. -/
theorem c3_unread_change_no_rerun (ret : Nat → Bool)
    (reads hreads : Nat → List Nat) (el : Nat) :
    (∀ (s : FnInstance) (w : List Nat), (∀ c ∈ w, c ∉ s.readSet) →
      fnFlush ret reads s w = (s, [])) ∧
    (∀ (s : HookInstance) (w : List Nat), (∀ c ∈ w, c ∉ s.readSet) →
      hookStep hreads el s (HEvent.flush w) = (s, [])) ∧
    (∀ (s : FnInstance) (w : List Nat), (fnFlush ret reads s w).2 ≠ [] →
      ∃ c ∈ w, c ∈ s.readSet) ∧
    (∀ (s : HookInstance) (w : List Nat),
      (hookStep hreads el s (HEvent.flush w)).2 ≠ [] →
      ∃ c ∈ w, c ∈ s.readSet) ∧
    (∀ (ws1 ws2 : List (List Nat)) (w : List Nat),
      (∀ c ∈ w, c ∉ (hookRun hreads el HookInstance.start
          (HEvent.create :: HEvent.install :: ws1.map HEvent.flush)).1.readSet) →
      hookRun hreads el HookInstance.start (hookWF (ws1 ++ w :: ws2)) =
        hookRun hreads el HookInstance.start (hookWF (ws1 ++ ws2))) := by
  refine ⟨?_, ?_, ?_, ?_, ?_⟩
  · intro s w hw
    rw [fnFlush, if_neg]
    rintro ⟨-, -, -, c, hc, hmem⟩
    exact hw c hc hmem
  · intro s w hw
    simp only [hookStep]
    rw [if_neg]
    rintro ⟨-, -, -, c, hc, hmem⟩
    exact hw c hc hmem
  · intro s w hne
    by_cases hcond : s.installed = true ∧ s.isDestroying = false ∧
        s.isDestroyed = false ∧ ∃ c ∈ w, c ∈ s.readSet
    · exact hcond.2.2.2
    · rw [fnFlush, if_neg hcond] at hne
      exact absurd rfl hne
  · intro s w hne
    by_cases hcond : s.installed = true ∧ s.isDestroying = false ∧
        s.isDestroyed = false ∧ ∃ c ∈ w, c ∈ s.readSet
    · exact hcond.2.2.2
    · simp only [hookStep] at hne
      rw [if_neg hcond] at hne
      exact absurd rfl hne
  · intro ws1 ws2 w hw
    have hpre1 : hookWF (ws1 ++ w :: ws2) =
        (HEvent.create :: HEvent.install :: ws1.map HEvent.flush) ++
        (HEvent.flush w :: (ws2.map HEvent.flush ++ [HEvent.destroy])) := by
      simp [hookWF]
    have hpre2 : hookWF (ws1 ++ ws2) =
        (HEvent.create :: HEvent.install :: ws1.map HEvent.flush) ++
        (ws2.map HEvent.flush ++ [HEvent.destroy]) := by
      simp [hookWF]
    rw [hpre1, hpre2, hookRun_append, hookRun_append]
    have hstep : hookStep hreads el
        (hookRun hreads el HookInstance.start
          (HEvent.create :: HEvent.install :: ws1.map HEvent.flush)).1
        (HEvent.flush w) =
        ((hookRun hreads el HookInstance.start
          (HEvent.create :: HEvent.install :: ws1.map HEvent.flush)).1, []) := by
      simp only [hookStep]
      rw [if_neg]
      rintro ⟨-, -, -, c, hc, hmem⟩
      exact hw c hc hmem
    rw [hookRun_skip hreads el _ (HEvent.flush w) _ hstep]

/-! ## Lifecycle flag invariants -/

theorem fnRun_no_destroy_destroyed (ret : Nat → Bool) (reads : Nat → List Nat) :
    ∀ (evts : List FEvent) (s : FnInstance), FEvent.destroy ∉ evts →
      s.isDestroyed = false → (fnRun ret reads s evts).1.isDestroyed = false := by
  intro evts
  induction evts with
  | nil =>
    intro s _ hs
    exact hs
  | cons e es ih =>
    intro s h hs
    simp only [List.mem_cons, not_or] at h
    obtain ⟨he, hes⟩ := h
    simp only [fnRun]
    apply ih _ hes
    cases e with
    | install => simpa [fnStep, fnInstall] using hs
    | update => simpa [fnStep, fnUpdate] using hs
    | destroy => exact absurd rfl he

theorem hookRun_no_destroy_destroyed (reads : Nat → List Nat) (el : Nat) :
    ∀ (evts : List HEvent) (s : HookInstance), HEvent.destroy ∉ evts →
      s.isDestroyed = false → (hookRun reads el s evts).1.isDestroyed = false := by
  intro evts
  induction evts with
  | nil =>
    intro s _ hs
    exact hs
  | cons e es ih =>
    intro s h hs
    simp only [List.mem_cons, not_or] at h
    obtain ⟨he, hes⟩ := h
    simp only [hookRun]
    apply ih _ hes
    cases e with
    | create => simpa [hookStep, hookCreate] using hs
    | install => simpa [hookStep, hookInstall] using hs
    | flush w =>
      simp only [hookStep]
      split
      · simpa [hookUpdate] using hs
      · exact hs
    | destroy => exact absurd rfl he

theorem take_append_left {α : Type} (l1 l2 : List α) (j : Nat)
    (h : j ≤ l1.length) : (l1 ++ l2).take j = l1.take j := by
  induction l1 generalizing j with
  | nil =>
    have hj : j = 0 := by simpa using h
    subst hj
    simp
  | cons x xs ih =>
    cases j with
    | zero => simp
    | succ j =>
      simp only [List.cons_append, List.take_succ_cons]
      rw [ih j (by simpa using h)]

theorem mem_of_mem_take {α : Type} {a : α} :
    ∀ (l : List α) (j : Nat), a ∈ l.take j → a ∈ l := by
  intro l
  induction l with
  | nil =>
    intro j h
    simp at h
  | cons x xs ih =>
    intro j h
    cases j with
    | zero => simp at h
    | succ j =>
      rcases List.mem_cons.mp (by simpa using h) with h | h
      · exact List.mem_cons.mpr (Or.inl h)
      · exact List.mem_cons.mpr (Or.inr (ih j h))

/-- C6: for both variants, isDestroying and isDestroyed are monotone under
every step, isDestroying becomes true strictly before isDestroyed does, no
well-formed host sequence ever applies an operation to an already destroyed
instance, and the destroyed flag is set in the final state. -/
theorem c6_destroy_flags_monotone (ret : Nat → Bool)
    (reads hreads : Nat → List Nat) (el : Nat) (ws : List (List Nat)) (k : Nat) :
    (∀ (s : FnInstance) (e : FEvent), s.isDestroying = true →
      (fnStep ret reads s e).1.isDestroying = true) ∧
    (∀ (s : FnInstance) (e : FEvent), s.isDestroyed = true →
      (fnStep ret reads s e).1.isDestroyed = true) ∧
    (∀ (s : HookInstance) (e : HEvent), s.isDestroying = true →
      (hookStep hreads el s e).1.isDestroying = true) ∧
    (∀ (s : HookInstance) (e : HEvent), s.isDestroyed = true →
      (hookStep hreads el s e).1.isDestroyed = true) ∧
    (∀ s : FnInstance, s.isDestroyed = false →
      (fnBeginDestroy s).isDestroying = true ∧
      (fnBeginDestroy s).isDestroyed = false ∧
      (fnFinalizeDestroy (fnBeginDestroy s)).isDestroyed = true) ∧
    (∀ s : HookInstance, s.isDestroyed = false →
      (hookBeginDestroy s).isDestroying = true ∧
      (hookBeginDestroy s).isDestroyed = false ∧
      (hookFinalizeDestroy (hookBeginDestroy s)).isDestroyed = true) ∧
    (∀ j, j < (hookWF ws).length →
      (hookRun hreads el HookInstance.start
        ((hookWF ws).take j)).1.isDestroyed = false) ∧
    (∀ j (d : Bool), j < (fnWF k d).length →
      (fnRun ret reads FnInstance.start ((fnWF k d).take j)).1.isDestroyed = false) ∧
    (hookRun hreads el HookInstance.start (hookWF ws)).1.isDestroyed = true ∧
    (fnRun ret reads FnInstance.start (fnWF k true)).1.isDestroyed = true := by
  refine ⟨?_, ?_, ?_, ?_, ?_, ?_, ?_, ?_, ?_, ?_⟩
  · intro s e h
    cases e <;>
      simp [fnStep, fnInstall, fnUpdate, fnDestroy, fnBeginDestroy,
        fnFinalizeDestroy, h]
  · intro s e h
    cases e <;>
      simp [fnStep, fnInstall, fnUpdate, fnDestroy, fnBeginDestroy,
        fnFinalizeDestroy, h]
  · intro s e h
    cases e with
    | create => simpa [hookStep, hookCreate] using h
    | install => simpa [hookStep, hookInstall] using h
    | flush w =>
      simp only [hookStep]
      split
      · simpa [hookUpdate] using h
      · exact h
    | destroy => simp [hookStep, hookDestroy, hookBeginDestroy, hookFinalizeDestroy]
  · intro s e h
    cases e with
    | create => simpa [hookStep, hookCreate] using h
    | install => simpa [hookStep, hookInstall] using h
    | flush w =>
      simp only [hookStep]
      split
      · simpa [hookUpdate] using h
      · exact h
    | destroy => simp [hookStep, hookDestroy, hookBeginDestroy, hookFinalizeDestroy]
  · intro s h
    exact ⟨rfl, h, rfl⟩
  · intro s h
    exact ⟨rfl, h, rfl⟩
  · intro j hj
    apply hookRun_no_destroy_destroyed hreads el _ _ _ rfl
    intro hmem
    have hfront : HEvent.destroy ∉
        (HEvent.create :: HEvent.install :: ws.map HEvent.flush) := by
      simp
    have hsplit : hookWF ws =
        (HEvent.create :: HEvent.install :: ws.map HEvent.flush) ++
          [HEvent.destroy] := rfl
    rw [hsplit] at hmem
    rw [take_append_left _ _ j (by
      rw [hsplit] at hj
      simpa using Nat.lt_succ_iff.mp (by simpa using hj))] at hmem
    exact hfront (mem_of_mem_take _ j hmem)
  · intro j d hj
    apply fnRun_no_destroy_destroyed ret reads _ _ _ rfl
    intro hmem
    cases d with
    | false =>
      have hfront : FEvent.destroy ∉ fnWF k false := by
        simp [fnWF]
      exact hfront (mem_of_mem_take _ j hmem)
    | true =>
      have hfront : FEvent.destroy ∉
          (FEvent.install :: List.replicate k FEvent.update) := by
        simp
      have hsplit : fnWF k true =
          (FEvent.install :: List.replicate k FEvent.update) ++
            [FEvent.destroy] := by
        simp [fnWF]
      rw [hsplit] at hmem
      rw [take_append_left _ _ j (by
        rw [hsplit] at hj
        simpa using Nat.lt_succ_iff.mp (by simpa using hj))] at hmem
      exact hfront (mem_of_mem_take _ j hmem)
  · obtain ⟨i2, rs2, h⟩ := hookRun_wf hreads el ws
    rw [h]
  · rw [fnRun_wfTrue]
    rfl

/-! ## The singleton manager and the modifier wrapper -/

/-- C9: every invocation of the modifier wrapper associates the user function
with the one process-wide FunctionBasedModifierManager value, returns the
result of setModifierManager applied to the function unchanged (no runtime
wrapper), and the manager carries nothing beyond its variant enumeration. -/
theorem c9_singleton_manager {F G : Type} (fn : F) (g : G) :
    modifier fn = setModifierManager (fun _ => MANAGER) fn ∧
    (modifier fn).fn = fn ∧
    (modifier fn).managerFactory () = MANAGER ∧
    (modifier fn).managerFactory () = (modifier g).managerFactory () ∧
    MANAGER.variant = ModifierVariant.functionBased :=
  ⟨rfl, rfl, rfl, rfl, rfl⟩

/-! ## Witnesses at concrete instances -/

/-- Witness for C1: one install returning a Teardown, one update, destroy. -/
theorem c1_fn_teardown_protocol_witness :
    ((0 : Nat) ≤ 1 ∧ (fun _ : Nat => true) 0 = true) ∧
    (occCount (Action.invokeTeardown 0)
        (fnTrace (fun _ => true) (fun _ => []) (fnWF 1 true)) = 1 ∧
      (0 < 1 → ∃ A B,
        fnTrace (fun _ => true) (fun _ => []) (fnWF 1 true) =
          A ++ Action.invokeTeardown 0 :: B ∧
        Action.invokeTeardown 0 ∉ A ∧ Action.runFn (0 + 1) ∉ A ∧
        Action.runFn (0 + 1) ∈ B) ∧
      (0 < 1 → occCount (Action.invokeTeardown 0)
        (fnTrace (fun _ => true) (fun _ => []) (fnWF 1 false)) = 1) ∧
      (0 = 1 → occCount (Action.invokeTeardown 0)
          (fnTrace (fun _ => true) (fun _ => []) (fnWF 1 false)) = 0 ∧
        fnTrace (fun _ => true) (fun _ => []) (fnWF 1 true) =
          fnTrace (fun _ => true) (fun _ => []) (fnWF 1 false) ++
            [Action.invokeTeardown 0])) :=
  ⟨⟨by decide, rfl⟩,
   c1_fn_teardown_protocol (fun _ => true) (fun _ => []) 1 0 (by decide) rfl⟩

/-- Witness for C10: the constructor call of a concrete run observes
isDestroying = false and isDestroyed = false. -/
theorem c10_hook_flags_during_hooks_witness :
    (⟨Hook.constructor, false, false, none⟩ : HookCall) ∈
        hookTrace (fun _ => [0]) 7 (hookWF []) ∧
    ((⟨Hook.constructor, false, false, none⟩ : HookCall).isDestroyed = false ∧
      (((⟨Hook.constructor, false, false, none⟩ : HookCall).hook = Hook.constructor ∨
        (⟨Hook.constructor, false, false, none⟩ : HookCall).hook =
          Hook.didReceiveArguments ∨
        (⟨Hook.constructor, false, false, none⟩ : HookCall).hook =
          Hook.didUpdateArguments ∨
        (⟨Hook.constructor, false, false, none⟩ : HookCall).hook = Hook.didInstall) →
        (⟨Hook.constructor, false, false, none⟩ : HookCall).isDestroying = false) ∧
      (((⟨Hook.constructor, false, false, none⟩ : HookCall).hook = Hook.willRemove ∨
        (⟨Hook.constructor, false, false, none⟩ : HookCall).hook = Hook.willDestroy) →
        (⟨Hook.constructor, false, false, none⟩ : HookCall).isDestroying = true)) :=
  ⟨by decide, c10_hook_flags_during_hooks (fun _ => [0]) 7 []
    ⟨Hook.constructor, false, false, none⟩ (by decide)⟩

end EmberModifier
